import Mathlib

/-!
Shallow embedding of the Paper-trader repository (src/trade_bot.py and
src/trader_poller.py).

Modelling conventions:
* Python floats are modelled as rationals (`ℚ`); `round(x, 2)` is modelled by
  `round2` (round to nearest cent; the tie-breaking direction is immaterial to
  every statement below, and all concrete inputs avoid ties).
* Python's `1e-9` literal is modelled as the rational `1/10^9`.
* Text is modelled as `List Char`, restricted to ASCII: the character classes
  `\w`, `\d`, `\s` and `str.lower/upper/strip` are taken in their ASCII
  meaning.
* Python dicts (the `positions` mapping) are modelled as association lists in
  insertion order with first-match lookup (`posGet`), in-place update
  (`posSet`) and key removal (`posPop`).
* File and network I/O (issue comments, Discord posts, timestamps) is out of
  scope; the ledger CSV is modelled as the list of appended records.
-/

namespace PaperTrader

/-! ## ASCII character classes used by the regexes -/

/-- Python `\s` (ASCII part): space, tab, newline, carriage return,
vertical tab, form feed. -/
def isWS (c : Char) : Bool :=
  c.toNat = 32 || c.toNat = 9 || c.toNat = 10 || c.toNat = 13 || c.toNat = 11 || c.toNat = 12

/-- Python `\d` (ASCII part): decimal digits. -/
def isDigitC (c : Char) : Bool :=
  48 ≤ c.toNat && c.toNat ≤ 57

/-- ASCII letters. -/
def isAlphaC (c : Char) : Bool :=
  (65 ≤ c.toNat && c.toNat ≤ 90) || (97 ≤ c.toNat && c.toNat ≤ 122)

/-- Character class `[A-Za-z0-9.-]` of trader_poller's ORDER_RE ticker group. -/
def isTickP (c : Char) : Bool :=
  isAlphaC c || isDigitC c || c.toNat = 46 || c.toNat = 45

/-- Character class `[\w.-]` of trade_bot's ORDER_RE ticker group
(`\w` additionally contains the underscore). -/
def isTickB (c : Char) : Bool :=
  isTickP c || c.toNat = 95

/-- ASCII `str.lower` on one character. -/
def lowerC (c : Char) : Char :=
  if 65 ≤ c.toNat ∧ c.toNat ≤ 90 then Char.ofNat (c.toNat + 32) else c

/-- ASCII `str.upper` on one character. -/
def upperC (c : Char) : Char :=
  if 97 ≤ c.toNat ∧ c.toNat ≤ 122 then Char.ofNat (c.toNat - 32) else c

/-- Python `str.strip`: drop leading and trailing whitespace. -/
def strip (s : List Char) : List Char :=
  ((s.dropWhile isWS).reverse.dropWhile isWS).reverse

/-- Value of a nonempty digit string, as `int(...)` computes it. -/
def digitsVal (ds : List Char) : ℕ :=
  ds.foldl (fun n c => 10 * n + (c.toNat - 48)) 0

/-! ## The command parsers -/

inductive Side where
  | buy
  | sell
deriving DecidableEq

/-- Matcher for the `(buy|sell)` alternation under `re.I`: a case-insensitive
`buy` or `sell` prefix, returning the side and the rest of the input. -/
def matchSide (s : List Char) : Option (Side × List Char) :=
  if (s.take 3).map lowerC = ['b', 'u', 'y'] then some (Side.buy, s.drop 3)
  else if (s.take 4).map lowerC = ['s', 'e', 'l', 'l'] then some (Side.sell, s.drop 4)
  else none

/-- The tail admitted after the digit group: for trade_bot's ORDER_RE this is
`\s*(?:@mkt)?$` (under `re.I`), for trader_poller's it is `$`. -/
def tailAccept (allowMkt : Bool) (r5 : List Char) : Prop :=
  if allowMkt then
    r5.dropWhile isWS = [] ∨ (r5.dropWhile isWS).map lowerC = ['@', 'm', 'k', 't']
  else r5 = []

instance (a : Bool) (r : List Char) : Decidable (tailAccept a r) := by
  unfold tailAccept
  exact inferInstance

/-- Matcher for `(buy|sell)\s+(tick{1,10})\s+(\d+)` followed by the admitted
tail, i.e. both ORDER_RE regexes after their leading sigil.  Because the
ticker class, `\s` and `\d` are pairwise disjoint where it matters, the
regexes' greedy matching coincides with maximal-run (`takeWhile`)
consumption. -/
def matchOrderCore (tick : Char → Bool) (allowMkt : Bool) (s : List Char) :
    Option (Side × List Char × ℕ) :=
  match matchSide s with
  | none => none
  | some (sd, r1) =>
    if r1.takeWhile isWS = [] then none
    else if (r1.dropWhile isWS).takeWhile tick = [] then none
    else if 10 < ((r1.dropWhile isWS).takeWhile tick).length then none
    else if ((r1.dropWhile isWS).dropWhile tick).takeWhile isWS = [] then none
    else if ((((r1.dropWhile isWS).dropWhile tick).dropWhile isWS).takeWhile isDigitC) = [] then none
    else if tailAccept allowMkt ((((r1.dropWhile isWS).dropWhile tick).dropWhile isWS).dropWhile isDigitC)
    then some (sd, (r1.dropWhile isWS).takeWhile tick,
               digitsVal ((((r1.dropWhile isWS).dropWhile tick).dropWhile isWS).takeWhile isDigitC))
    else none

/-- A whole ORDER_RE match: the sigil character (`'!'` or `'/'`), then the
core pattern. -/
def matchOrderFull (sigil : Char) (tick : Char → Bool) (allowMkt : Bool) (s : List Char) :
    Option (Side × List Char × ℕ) :=
  match s with
  | [] => none
  | c :: r => if c = sigil then matchOrderCore tick allowMkt r else none

inductive Cmd where
  | order (side : Side) (tick : List Char) (qty : ℕ)
  | price (tick : List Char)
  | portfolio
deriving DecidableEq

/-- trader_poller's PRICE_RE: `^!price\s+([A-Za-z0-9.-]{1,10})$` under `re.I`. -/
def matchPriceCmd (s : List Char) : Option (List Char) :=
  match s with
  | [] => none
  | c :: r =>
    if c = '!' ∧ (r.take 5).map lowerC = ['p', 'r', 'i', 'c', 'e'] then
      if (r.drop 5).takeWhile isWS = [] then none
      else if ((r.drop 5).dropWhile isWS).takeWhile isTickP = [] then none
      else if 10 < (((r.drop 5).dropWhile isWS).takeWhile isTickP).length then none
      else if ((r.drop 5).dropWhile isWS).dropWhile isTickP = []
      then some (((r.drop 5).dropWhile isWS).takeWhile isTickP)
      else none
    else none

/-- trader_poller's `parse_command`: strip, try ORDER_RE (sigil `'!'`, ticker
class `[A-Za-z0-9.-]`, no `@mkt` tail), then PRICE_RE, then the
case-insensitive `!portfolio` prefix test. Tickers are upper-cased. -/
def parse_command (text : List Char) : Option Cmd :=
  match matchOrderFull '!' isTickP false (strip text) with
  | some (sd, tk, q) => some (Cmd.order sd (tk.map upperC) q)
  | none =>
    match matchPriceCmd (strip text) with
    | some tk => some (Cmd.price (tk.map upperC))
    | none =>
      if ((strip text).map lowerC).take 10 = ['!', 'p', 'o', 'r', 't', 'f', 'o', 'l', 'i', 'o']
      then some Cmd.portfolio
      else none

/-- trade_bot's `parse_order`: strip, match ORDER_RE (sigil `'/'`, ticker
class `[\w.-]`, optional `\s*(?:@mkt)?` tail), upper-casing the ticker. -/
def parse_order (text : List Char) : Option (Side × List Char × ℕ) :=
  (matchOrderFull '/' isTickB true (strip text)).map
    (fun t => (t.1, t.2.1.map upperC, t.2.2))

/-! ## The fill engines -/

abbrev Ticker := List Char

structure LedgerRec where
  side : Side
  sym : Ticker
  qty : ℕ
  px : ℚ
  notional : ℚ
deriving DecidableEq

inductive Outcome where
  | filled
  | notAllowed
  | noPrice
  | insufficientCash
  | insufficientShares
deriving DecidableEq

structure Order where
  side : Side
  sym : Ticker
  qty : ℕ
deriving DecidableEq

/-- Portfolio-plus-ledger state threaded through the engines. -/
structure EngineSt where
  cash : ℚ
  positions : List (Ticker × ℕ)
  ledger : List LedgerRec
deriving DecidableEq

/-- Python `positions.get(sym, 0)`: first-match lookup, default 0. -/
def posGet : List (Ticker × ℕ) → Ticker → ℕ
  | [], _ => 0
  | p :: rest, s => if p.1 = s then p.2 else posGet rest s

/-- Python `positions[sym] = v`: replace in place if the key is present,
else append. -/
def posSet : List (Ticker × ℕ) → Ticker → ℕ → List (Ticker × ℕ)
  | [], s, v => [(s, v)]
  | p :: rest, s, v => if p.1 = s then (s, v) :: rest else p :: posSet rest s v

/-- Python `positions.pop(sym, None)`: remove the entry with the key. -/
def posPop : List (Ticker × ℕ) → Ticker → List (Ticker × ℕ)
  | [], _ => []
  | p :: rest, s => if p.1 = s then rest else p :: posPop rest s

/-- Python `round(x, 2)` modelled on rationals. -/
def round2 (x : ℚ) : ℚ := (round (x * 100) : ℤ) / 100

/-- The float literal `1e-9` used by trade_bot's cash gate. -/
def eps : ℚ := 1 / 1000000000

/-- trader_poller's `do_order`: allowlist gate, quote gate, then the
buy/sell branch; cash is rounded to cents on every mutation. -/
def do_order (allow : List Ticker) (quotes : Ticker → Option ℚ) (side : Side)
    (sym : Ticker) (qty : ℕ) (st : EngineSt) : EngineSt × Outcome :=
  if sym ∈ allow then
    match quotes sym with
    | none => (st, Outcome.noPrice)
    | some px =>
      match side with
      | Side.buy =>
        if (qty : ℚ) * px > st.cash then (st, Outcome.insufficientCash)
        else ({ cash := round2 (st.cash - qty * px),
                positions := posSet st.positions sym (posGet st.positions sym + qty),
                ledger := st.ledger ++ [⟨Side.buy, sym, qty, px, (qty : ℚ) * px⟩] },
              Outcome.filled)
      | Side.sell =>
        if qty > posGet st.positions sym then (st, Outcome.insufficientShares)
        else ({ cash := round2 (st.cash + qty * px),
                positions :=
                  if posGet st.positions sym - qty ≠ 0
                  then posSet st.positions sym (posGet st.positions sym - qty)
                  else posPop st.positions sym,
                ledger := st.ledger ++ [⟨Side.sell, sym, qty, px, (qty : ℚ) * px⟩] },
              Outcome.filled)
  else (st, Outcome.notAllowed)

/-- The body of trade_bot's `fill_orders` loop for one order (the allowlist
filter has already run before the loop): quote gate, then buy with the
`cash + 1e-9` tolerance, or sell; cash is not rounded here. -/
def tbLoopStep (quotes : Ticker → Option ℚ) (st : EngineSt) (o : Order) : EngineSt × Outcome :=
  match quotes o.sym with
  | none => (st, Outcome.noPrice)
  | some px =>
    match o.side with
    | Side.buy =>
      if (o.qty : ℚ) * px > st.cash + eps then (st, Outcome.insufficientCash)
      else ({ cash := st.cash - o.qty * px,
              positions := posSet st.positions o.sym (posGet st.positions o.sym + o.qty),
              ledger := st.ledger ++ [⟨Side.buy, o.sym, o.qty, px, (o.qty : ℚ) * px⟩] },
            Outcome.filled)
    | Side.sell =>
      if o.qty > posGet st.positions o.sym then (st, Outcome.insufficientShares)
      else ({ cash := st.cash + o.qty * px,
              positions :=
                if posGet (posSet st.positions o.sym (posGet st.positions o.sym - o.qty)) o.sym = 0
                then posPop (posSet st.positions o.sym (posGet st.positions o.sym - o.qty)) o.sym
                else posSet st.positions o.sym (posGet st.positions o.sym - o.qty),
              ledger := st.ledger ++ [⟨Side.sell, o.sym, o.qty, px, (o.qty : ℚ) * px⟩] },
            Outcome.filled)

/-- The per-order effect of trade_bot's pipeline: the allowlist filter in
front of the loop, then the loop body. -/
def tbProcessOrder (allow : List Ticker) (quotes : Ticker → Option ℚ) (st : EngineSt)
    (o : Order) : EngineSt × Outcome :=
  if o.sym ∈ allow then tbLoopStep quotes st o else (st, Outcome.notAllowed)

/-- trade_bot's `fill_orders` on a batch: early return when there are no
orders at all; otherwise filter by allowlist, fold the loop, and round cash
to cents at the final `save_portfolio`. -/
def tbFillBatch (allow : List Ticker) (quotes : Ticker → Option ℚ) (orders : List Order)
    (st : EngineSt) : EngineSt :=
  match orders with
  | [] => st
  | _ :: _ =>
    let stF := (orders.filter (fun o => decide (o.sym ∈ allow))).foldl
      (fun s o => (tbLoopStep quotes s o).1) st
    { stF with cash := round2 stF.cash }

/-! ## Valuation (mark-to-market / portfolio query) -/

structure Row where
  sym : Ticker
  qty : ℕ
  px : ℚ
  val : ℚ
deriving DecidableEq

/-- The shared shape of the two valuation loops: skip a position with no
quote, otherwise accumulate its value and append one row. -/
def navStep (val : ℕ → ℚ → ℚ) (quotes : Ticker → Option ℚ) (a : ℚ × List Row)
    (p : Ticker × ℕ) : ℚ × List Row :=
  match quotes p.1 with
  | none => a
  | some px => (a.1 + val p.2 px, a.2 ++ [⟨p.1, p.2, px, val p.2 px⟩])

/-- trade_bot's `mark_to_market`: `val = px * q`, NAV = cash + equity. -/
def mark_to_market (cash : ℚ) (ps : List (Ticker × ℕ)) (quotes : Ticker → Option ℚ) :
    ℚ × List Row :=
  (cash + (ps.foldl (navStep (fun q px => px * q) quotes) (0, [])).1,
   (ps.foldl (navStep (fun q px => px * q) quotes) (0, [])).2)

/-- trader_poller's `do_portfolio`: with no positions it posts cash only and
computes no NAV; otherwise `val = q * px`, NAV = cash + equity. -/
def do_portfolio (cash : ℚ) (ps : List (Ticker × ℕ)) (quotes : Ticker → Option ℚ) :
    Option (ℚ × List Row) :=
  if ps = [] then none
  else some
    (cash + (ps.foldl (navStep (fun q px => (q : ℚ) * px) quotes) (0, [])).1,
     (ps.foldl (navStep (fun q px => (q : ℚ) * px) quotes) (0, [])).2)

/-! ## The polling loop's cursor discipline -/

structure Msg where
  id : ℕ
  bot : Bool
  content : List Char

/-- A message counts as actionable when it is not bot-authored, has nonempty
stripped content, and parses to some command. -/
def actionable (m : Msg) : Bool :=
  !m.bot && !(strip m.content).isEmpty && (parse_command m.content).isSome

/-- One iteration of trader_poller's `main` loop: every branch ends with
`new_last_id = mid`; `processed_any` is set when a command was handled. -/
def pollStep (st : Option ℕ × Bool) (m : Msg) : Option ℕ × Bool :=
  (some m.id, st.2 || actionable m)

/-- The cursor value persisted in state.json after one run of `main`:
process the fetched batch oldest-first (the fetch returns newest-first),
then save `new_last_id` if anything was processed, or if it changed and is
not `None`; otherwise keep the old value. -/
def finalCursor (lastId : Option ℕ) (msgs : List Msg) : Option ℕ :=
  if (msgs.reverse.foldl pollStep (lastId, false)).2 then
    (msgs.reverse.foldl pollStep (lastId, false)).1
  else if lastId ≠ (msgs.reverse.foldl pollStep (lastId, false)).1 ∧
          (msgs.reverse.foldl pollStep (lastId, false)).1 ≠ none then
    (msgs.reverse.foldl pollStep (lastId, false)).1
  else lastId

/-! ## Grammar predicates (spec-side description of the ORDER_RE languages) -/

/-- Every character of the list satisfies the whitespace class. -/
def AllWS (l : List Char) : Prop := ∀ c ∈ l, isWS c = true

/-- The side word of an order text: a case-insensitive `buy` or `sell`. -/
def SideWordOK (sd : Side) (sw : List Char) : Prop :=
  (sd = Side.buy ∧ sw.map lowerC = ['b', 'u', 'y']) ∨
  (sd = Side.sell ∧ sw.map lowerC = ['s', 'e', 'l', 'l'])

/-- The admissible text after the digits: nothing for trader_poller;
optional whitespace then an optional case-insensitive `@mkt` for trade_bot. -/
def TailOK (allowMkt : Bool) (tl : List Char) : Prop :=
  if allowMkt then
    AllWS tl ∨ ∃ w3 mk, tl = w3 ++ mk ∧ AllWS w3 ∧ mk.map lowerC = ['@', 'm', 'k', 't']
  else tl = []

/-- The language of `matchOrderCore`, described as a decomposition: side
word, whitespace, a 1–10 character ticker over the class `tick`, whitespace,
a nonempty digit string, and an admitted tail. -/
def CoreShape (tick : Char → Bool) (allowMkt : Bool) (s : List Char) (sd : Side)
    (tk : List Char) (q : ℕ) : Prop :=
  ∃ sw w1 w2 ds tl,
    s = sw ++ w1 ++ tk ++ w2 ++ ds ++ tl ∧
    SideWordOK sd sw ∧
    w1 ≠ [] ∧ AllWS w1 ∧
    tk ≠ [] ∧ tk.length ≤ 10 ∧ (∀ c ∈ tk, tick c = true) ∧
    w2 ≠ [] ∧ AllWS w2 ∧
    ds ≠ [] ∧ (∀ c ∈ ds, isDigitC c = true) ∧
    TailOK allowMkt tl ∧
    q = digitsVal ds

/-- The order texts accepted by trader_poller's parser (before the ticker is
upper-cased): `!` then the core shape over `[A-Za-z0-9.-]`, no tail. -/
def PollerOrderText (s : List Char) (sd : Side) (raw : List Char) (q : ℕ) : Prop :=
  ∃ r, strip s = '!' :: r ∧ CoreShape isTickP false r sd raw q

/-- The order texts accepted by trade_bot's parser (before the ticker is
upper-cased): `/` then the core shape over `[\w.-]` with the optional
`@mkt` tail. -/
def TBOrderText (s : List Char) (sd : Side) (raw : List Char) (q : ℕ) : Prop :=
  ∃ r, strip s = '/' :: r ∧ CoreShape isTickB true r sd raw q

/-! ## Helper lemmas: positions dictionary -/

theorem posGet_posSet (ps : List (Ticker × ℕ)) (s : Ticker) (v : ℕ) :
    posGet (posSet ps s v) s = v := by
  induction ps with
  | nil => simp [posSet, posGet]
  | cons p rest ih =>
    by_cases h : p.1 = s
    · simp [posSet, posGet, h]
    · simp [posSet, posGet, h, ih]

theorem posPop_posSet (ps : List (Ticker × ℕ)) (s : Ticker) (v : ℕ) :
    posPop (posSet ps s v) s = posPop ps s := by
  induction ps with
  | nil => simp [posSet, posPop]
  | cons p rest ih =>
    by_cases h : p.1 = s
    · simp [posSet, posPop, h]
    · simp [posSet, posPop, h, ih]

theorem mem_posPop {p : Ticker × ℕ} {ps : List (Ticker × ℕ)} {s : Ticker}
    (h : p ∈ posPop ps s) : p ∈ ps := by
  induction ps with
  | nil => simp [posPop] at h
  | cons q rest ih =>
    by_cases hq : q.1 = s
    · simp only [posPop, if_pos hq] at h
      exact List.mem_cons_of_mem _ h
    · simp only [posPop, if_neg hq, List.mem_cons] at h
      rcases h with h | h
      · exact h ▸ List.mem_cons_self _ _
      · exact List.mem_cons_of_mem _ (ih h)

theorem mem_posSet {p : Ticker × ℕ} {ps : List (Ticker × ℕ)} {s : Ticker} {v : ℕ}
    (h : p ∈ posSet ps s v) : p ∈ ps ∨ p = (s, v) := by
  induction ps with
  | nil => simpa [posSet] using h
  | cons q rest ih =>
    by_cases hq : q.1 = s
    · simp only [posSet, if_pos hq, List.mem_cons] at h
      rcases h with h | h
      · exact Or.inr h
      · exact Or.inl (List.mem_cons_of_mem _ h)
    · simp only [posSet, if_neg hq, List.mem_cons] at h
      rcases h with h | h
      · exact Or.inl (h ▸ List.mem_cons_self _ _)
      · rcases ih h with h' | h'
        · exact Or.inl (List.mem_cons_of_mem _ h')
        · exact Or.inr h'

theorem not_mem_keys_posPop {ps : List (Ticker × ℕ)} {s : Ticker}
    (hnd : (ps.map Prod.fst).Nodup) : s ∉ (posPop ps s).map Prod.fst := by
  induction ps with
  | nil => simp [posPop]
  | cons q rest ih =>
    rw [List.map_cons, List.nodup_cons] at hnd
    by_cases hq : q.1 = s
    · simp only [posPop, if_pos hq]
      exact fun hs => hnd.1 (hq ▸ hs)
    · simp only [posPop, if_neg hq, List.map_cons, List.mem_cons]
      rintro (h | h)
      · exact hq h.symm
      · exact ih hnd.2 h

/-! ## Helper lemmas: cent rounding -/

theorem round2_round2 (x : ℚ) : round2 (round2 x) = round2 x := by
  unfold round2
  rw [div_mul_cancel₀ _ (by norm_num : (100 : ℚ) ≠ 0), round_intCast]

theorem round2_nonneg {x : ℚ} (h : -eps ≤ x) : 0 ≤ round2 x := by
  unfold round2
  apply div_nonneg _ (by norm_num)
  have h1 : (0 : ℤ) ≤ round (x * 100) := by
    rw [round_eq]
    apply Int.floor_nonneg.2
    unfold eps at h
    nlinarith
  exact_mod_cast h1

/-! ## Claim C1: successful buys -/

/-- C1: a buy that passes all validation gates (allowlisted ticker, quote
obtained, cost within the variant's cash gate) ends with cash equal to the
prior cash minus quantity times price rounded to cents, the held quantity
increased by the order quantity, and exactly one appended ledger record with
notional quantity times price — in trader_poller's `do_order` and in
trade_bot's `fill_orders` on that single order. -/
theorem buy_fill_spec (allow : List Ticker) (quotes : Ticker → Option ℚ) (sym : Ticker)
    (px : ℚ) (qty : ℕ) (st : EngineSt) (hA : sym ∈ allow) (hq : quotes sym = some px) :
    ((qty : ℚ) * px ≤ st.cash →
      do_order allow quotes Side.buy sym qty st =
        ({ cash := round2 (st.cash - qty * px),
           positions := posSet st.positions sym (posGet st.positions sym + qty),
           ledger := st.ledger ++ [⟨Side.buy, sym, qty, px, (qty : ℚ) * px⟩] },
         Outcome.filled) ∧
      posGet (do_order allow quotes Side.buy sym qty st).1.positions sym =
        posGet st.positions sym + qty) ∧
    ((qty : ℚ) * px ≤ st.cash + eps →
      tbFillBatch allow quotes [⟨Side.buy, sym, qty⟩] st =
        { cash := round2 (st.cash - qty * px),
          positions := posSet st.positions sym (posGet st.positions sym + qty),
          ledger := st.ledger ++ [⟨Side.buy, sym, qty, px, (qty : ℚ) * px⟩] } ∧
      posGet (tbFillBatch allow quotes [⟨Side.buy, sym, qty⟩] st).positions sym =
        posGet st.positions sym + qty) := by
  constructor
  · intro hc
    have heq : do_order allow quotes Side.buy sym qty st =
        ({ cash := round2 (st.cash - qty * px),
           positions := posSet st.positions sym (posGet st.positions sym + qty),
           ledger := st.ledger ++ [⟨Side.buy, sym, qty, px, (qty : ℚ) * px⟩] },
         Outcome.filled) := by
      unfold do_order
      rw [if_pos hA, hq]
      simp only [gt_iff_lt, not_lt.mpr hc, ite_false]
    exact ⟨heq, by rw [heq]; exact posGet_posSet _ _ _⟩
  · intro hc
    have heq : tbFillBatch allow quotes [⟨Side.buy, sym, qty⟩] st =
        { cash := round2 (st.cash - qty * px),
          positions := posSet st.positions sym (posGet st.positions sym + qty),
          ledger := st.ledger ++ [⟨Side.buy, sym, qty, px, (qty : ℚ) * px⟩] } := by
      unfold tbFillBatch
      simp only [List.filter, decide_eq_true_eq, hA, if_pos hA, List.foldl]
      unfold tbLoopStep
      simp only [hq]
      rw [if_neg (not_lt.mpr hc)]
    exact ⟨heq, by rw [heq]; exact posGet_posSet _ _ _⟩

/-! ## Claim C2: successful sells -/

/-- C2 counterexample: the claim says the resulting cash equals the prior
cash plus quantity times price exactly.  Selling 1 share at price 1/3 from
cash 0, trader_poller's `do_order` rounds the proceeds to cents and leaves
cash 33/100, which differs from 0 + 1 * (1/3). -/
theorem sell_exact_cash_counterexample :
    (do_order [['A']] (fun _ => some (1/3)) Side.sell ['A'] 1
        ⟨0, [(['A'], 1)], []⟩).1.cash = 33/100 ∧
    (33/100 : ℚ) ≠ 0 + (1 : ℚ) * (1/3) := by
  constructor
  · norm_num [do_order, posGet, posSet, posPop, round2, round_eq, Int.floor_eq_iff]
  · norm_num

/-- C2 amended: a sell that passes all gates fills; the resulting cash is
the prior cash plus quantity times price rounded to cents; when the order
quantity equals the held quantity the ticker key is absent afterwards, and
otherwise the held quantity drops by the order quantity; exactly one ledger
record with notional quantity times price is appended.  Both in
trader_poller's `do_order` and in trade_bot's `fill_orders` on that single
order. -/
theorem sell_fill_spec (allow : List Ticker) (quotes : Ticker → Option ℚ) (sym : Ticker)
    (px : ℚ) (qty : ℕ) (st : EngineSt) (hA : sym ∈ allow) (hq : quotes sym = some px)
    (hnd : (st.positions.map Prod.fst).Nodup) (hqty : qty ≤ posGet st.positions sym) :
    ((do_order allow quotes Side.sell sym qty st).2 = Outcome.filled ∧
     (do_order allow quotes Side.sell sym qty st).1.cash = round2 (st.cash + qty * px) ∧
     (qty = posGet st.positions sym →
       sym ∉ ((do_order allow quotes Side.sell sym qty st).1.positions.map Prod.fst)) ∧
     (qty < posGet st.positions sym →
       posGet (do_order allow quotes Side.sell sym qty st).1.positions sym =
         posGet st.positions sym - qty) ∧
     (do_order allow quotes Side.sell sym qty st).1.ledger =
       st.ledger ++ [⟨Side.sell, sym, qty, px, (qty : ℚ) * px⟩]) ∧
    ((tbFillBatch allow quotes [⟨Side.sell, sym, qty⟩] st).cash = round2 (st.cash + qty * px) ∧
     (qty = posGet st.positions sym →
       sym ∉ ((tbFillBatch allow quotes [⟨Side.sell, sym, qty⟩] st).positions.map Prod.fst)) ∧
     (qty < posGet st.positions sym →
       posGet (tbFillBatch allow quotes [⟨Side.sell, sym, qty⟩] st).positions sym =
         posGet st.positions sym - qty) ∧
     (tbFillBatch allow quotes [⟨Side.sell, sym, qty⟩] st).ledger =
       st.ledger ++ [⟨Side.sell, sym, qty, px, (qty : ℚ) * px⟩]) := by
  have hr : do_order allow quotes Side.sell sym qty st =
      ({ cash := round2 (st.cash + qty * px),
         positions :=
           if posGet st.positions sym - qty ≠ 0
           then posSet st.positions sym (posGet st.positions sym - qty)
           else posPop st.positions sym,
         ledger := st.ledger ++ [⟨Side.sell, sym, qty, px, (qty : ℚ) * px⟩] },
       Outcome.filled) := by
    unfold do_order
    rw [if_pos hA, hq]
    simp only [gt_iff_lt, not_lt.mpr hqty, ite_false]
  have htb : tbFillBatch allow quotes [⟨Side.sell, sym, qty⟩] st =
      { cash := round2 (st.cash + qty * px),
        positions :=
          if posGet st.positions sym - qty ≠ 0
          then posSet st.positions sym (posGet st.positions sym - qty)
          else posPop st.positions sym,
        ledger := st.ledger ++ [⟨Side.sell, sym, qty, px, (qty : ℚ) * px⟩] } := by
    unfold tbFillBatch
    simp only [List.filter, decide_eq_true_eq, hA, if_pos hA, List.foldl]
    unfold tbLoopStep
    simp only [hq, gt_iff_lt, not_lt.mpr hqty, ite_false, posGet_posSet, posPop_posSet]
    by_cases h0 : posGet st.positions sym - qty = 0
    · simp [h0]
    · simp [h0]
  refine ⟨⟨by rw [hr], by rw [hr], ?_, ?_, by rw [hr]⟩,
          ⟨by rw [htb], ?_, ?_, by rw [htb]⟩⟩
  · intro he
    rw [hr]
    simp only [he, Nat.sub_self, ne_eq, not_true_eq_false, ite_false]
    exact not_mem_keys_posPop hnd
  · intro hlt
    rw [hr]
    simp only [ne_eq, Nat.sub_eq_zero_iff_le.not.mpr (not_le.mpr hlt), not_false_eq_true,
      ite_true]
    exact posGet_posSet _ _ _
  · intro he
    rw [htb]
    simp only [he, Nat.sub_self, ne_eq, not_true_eq_false, ite_false]
    exact not_mem_keys_posPop hnd
  · intro hlt
    rw [htb]
    simp only [ne_eq, Nat.sub_eq_zero_iff_le.not.mpr (not_le.mpr hlt), not_false_eq_true,
      ite_true]
    exact posGet_posSet _ _ _

/-- C2 witness: selling the whole position of 2 shares at price 1/4 from
cash 10 yields cash 10.50 and removes the key. -/
theorem sell_fill_spec_witness :
    (do_order [['A']] (fun _ => some (1/4)) Side.sell ['A'] 2 ⟨10, [(['A'], 2)], []⟩).2 =
      Outcome.filled ∧
    (do_order [['A']] (fun _ => some (1/4)) Side.sell ['A'] 2
        ⟨10, [(['A'], 2)], []⟩).1.cash = round2 (10 + (2 : ℕ) * (1/4)) ∧
    ['A'] ∉ ((do_order [['A']] (fun _ => some (1/4)) Side.sell ['A'] 2
        ⟨10, [(['A'], 2)], []⟩).1.positions.map Prod.fst) := by
  have h := sell_fill_spec [['A']] (fun _ => some (1/4)) ['A'] (1/4) 2
    ⟨10, [(['A'], 2)], []⟩ (by decide) rfl (by decide) (by simp [posGet])
  exact ⟨h.1.1, h.1.2.1, h.1.2.2.1 (by simp [posGet])⟩

/-! ## Claim C3: rejections mutate nothing -/

/-- C3: whenever an order fails a validation gate (not allowlisted, no
quote, insufficient cash, insufficient shares) — equivalently, whenever the
outcome is not `filled` — the cash, positions and ledger are returned
exactly unchanged, in both engines. -/
theorem reject_no_mutation (allow : List Ticker) (quotes : Ticker → Option ℚ) (side : Side)
    (sym : Ticker) (qty : ℕ) (st : EngineSt) :
    ((do_order allow quotes side sym qty st).2 ≠ Outcome.filled →
      (do_order allow quotes side sym qty st).1 = st) ∧
    ((tbProcessOrder allow quotes st ⟨side, sym, qty⟩).2 ≠ Outcome.filled →
      (tbProcessOrder allow quotes st ⟨side, sym, qty⟩).1 = st) := by
  constructor
  · unfold do_order
    by_cases hA : sym ∈ allow
    · rw [if_pos hA]
      cases hq : quotes sym with
      | none => intro _; rfl
      | some px =>
        cases side with
        | buy =>
          by_cases hc : (qty : ℚ) * px > st.cash
          · simp only [hc, ite_true]
            intro _; trivial
          · simp only [hc, ite_false]
            intro h; exact absurd rfl h
        | sell =>
          by_cases hs : qty > posGet st.positions sym
          · simp only [hs, ite_true]
            intro _; trivial
          · simp only [hs, ite_false]
            intro h; exact absurd rfl h
    · rw [if_neg hA]
      intro _; rfl
  · unfold tbProcessOrder tbLoopStep
    by_cases hA : sym ∈ allow
    · rw [if_pos hA]
      cases hq : quotes sym with
      | none => intro _; rfl
      | some px =>
        cases side with
        | buy =>
          by_cases hc : (qty : ℚ) * px > st.cash + eps
          · simp only [hc, ite_true]
            intro _; trivial
          · simp only [hc, ite_false]
            intro h; exact absurd rfl h
        | sell =>
          by_cases hs : qty > posGet st.positions sym
          · simp only [hs, ite_true]
            intro _; trivial
          · simp only [hs, ite_false]
            intro h; exact absurd rfl h
    · rw [if_neg hA]
      intro _; rfl

/-- C3 witness: an order for a ticker outside the allowlist is rejected and
leaves the state untouched, in both engines. -/
theorem reject_no_mutation_witness :
    (do_order [] (fun _ => some 5) Side.buy ['A'] 1 ⟨7, [(['B'], 2)], []⟩).1 =
      ⟨7, [(['B'], 2)], []⟩ ∧
    (tbProcessOrder [] (fun _ => some 5) ⟨7, [(['B'], 2)], []⟩ ⟨Side.buy, ['A'], 1⟩).1 =
      ⟨7, [(['B'], 2)], []⟩ := by
  have h := reject_no_mutation [] (fun _ => some 5) Side.buy ['A'] 1 ⟨7, [(['B'], 2)], []⟩
  exact ⟨h.1 (by simp [do_order]), h.2 (by simp [tbProcessOrder])⟩

/-! ## Claim C4: the insufficient-cash gate -/

/-- C4 counterexample: the claim says a buy is rejected for insufficient
cash if and only if the cost exceeds cash + 1e-9, so a buy whose cost
exceeds cash by only 1e-10 should fill.  trader_poller's `do_order` has no
epsilon: with cash 100 and price 100 + 1e-10 it rejects the buy even though
the cost is within the claimed tolerance. -/
theorem buy_gate_counterexample :
    (do_order [['A']] (fun _ => some (100 + 1/10000000000)) Side.buy ['A'] 1
        ⟨100, [], []⟩).2 = Outcome.insufficientCash ∧
    (1 : ℚ) * (100 + 1/10000000000) ≤ 100 + eps := by
  constructor
  · norm_num [do_order]
  · norm_num [eps]

/-- C4 amended: with the ticker allowlisted and a quote obtained, trade_bot
rejects a buy for insufficient cash exactly when the cost exceeds
cash + 1e-9, while trader_poller rejects exactly when the cost exceeds cash
(no tolerance). -/
theorem buy_cash_gate (allow : List Ticker) (quotes : Ticker → Option ℚ) (sym : Ticker)
    (px : ℚ) (qty : ℕ) (st : EngineSt) (hA : sym ∈ allow) (hq : quotes sym = some px) :
    ((do_order allow quotes Side.buy sym qty st).2 = Outcome.insufficientCash ↔
      st.cash < (qty : ℚ) * px) ∧
    ((tbProcessOrder allow quotes st ⟨Side.buy, sym, qty⟩).2 = Outcome.insufficientCash ↔
      st.cash + eps < (qty : ℚ) * px) := by
  constructor
  · unfold do_order
    rw [if_pos hA, hq]
    by_cases hc : (qty : ℚ) * px > st.cash
    · simp [hc]
    · simp [hc]
  · unfold tbProcessOrder tbLoopStep
    rw [if_pos hA]
    simp only [hq]
    by_cases hc : (qty : ℚ) * px > st.cash + eps
    · simp [hc]
    · simp [hc]

/-- C4 witness: with cash 100 and cost 150 the poller's gate fires exactly
as characterized. -/
theorem buy_cash_gate_witness :
    ((do_order [['A']] (fun _ => some 150) Side.buy ['A'] 1 ⟨100, [], []⟩).2 =
        Outcome.insufficientCash ↔ (100 : ℚ) < (1 : ℕ) * 150) ∧
    ((tbProcessOrder [['A']] (fun _ => some 150) ⟨100, [], []⟩ ⟨Side.buy, ['A'], 1⟩).2 =
        Outcome.insufficientCash ↔ (100 : ℚ) + eps < (1 : ℕ) * 150) :=
  buy_cash_gate [['A']] (fun _ => some 150) ['A'] 150 1 ⟨100, [], []⟩ (by decide) rfl

/-- C1 witness: buying 10 shares at price 150 from cash 100000. -/
theorem buy_fill_spec_witness :
    posGet (do_order [['A']] (fun _ => some 150) Side.buy ['A'] 10
        ⟨100000, [], []⟩).1.positions ['A'] = posGet ([] : List (Ticker × ℕ)) ['A'] + 10 ∧
    posGet (tbFillBatch [['A']] (fun _ => some 150) [⟨Side.buy, ['A'], 10⟩]
        ⟨100000, [], []⟩).positions ['A'] = posGet ([] : List (Ticker × ℕ)) ['A'] + 10 := by
  have h := buy_fill_spec [['A']] (fun _ => some 150) ['A'] 150 10 ⟨100000, [], []⟩
    (by decide) rfl
  exact ⟨(h.1 (by norm_num)).2, (h.2 (by norm_num [eps])).2⟩

/-! ## Claim C5: portfolio invariants -/

/-- C5 counterexample: the claim says cash is always nonnegative after a
successful fill.  trade_bot's epsilon tolerance fills a buy of 1 share at
price 1e-10 from cash 0 (cost exceeds cash by less than 1e-9), leaving the
in-batch cash strictly negative. -/
theorem negative_cash_counterexample :
    (tbProcessOrder [['A']] (fun _ => some (1/10000000000)) ⟨0, [], []⟩
        ⟨Side.buy, ['A'], 1⟩).2 = Outcome.filled ∧
    (tbProcessOrder [['A']] (fun _ => some (1/10000000000)) ⟨0, [], []⟩
        ⟨Side.buy, ['A'], 1⟩).1.cash < 0 := by
  constructor
  · norm_num [tbProcessOrder, tbLoopStep, eps]
  · norm_num [tbProcessOrder, tbLoopStep, eps]

theorem tbLoopStep_cash_lb (quotes : Ticker → Option ℚ)
    (hq0 : ∀ t px, quotes t = some px → 0 ≤ px) (st : EngineSt) (o : Order)
    (h : -eps ≤ st.cash) : -eps ≤ (tbLoopStep quotes st o).1.cash := by
  unfold tbLoopStep
  cases hq : quotes o.sym with
  | none => exact h
  | some px =>
    cases o.side with
    | buy =>
      by_cases hc : (o.qty : ℚ) * px > st.cash + eps
      · simp only [hc, ite_true]
        exact h
      · simp only [hc, ite_false]
        push_neg at hc
        show -eps ≤ st.cash - (o.qty : ℚ) * px
        linarith
    | sell =>
      by_cases hs : o.qty > posGet st.positions o.sym
      · simp only [hs, ite_true]
        exact h
      · simp only [hs, ite_false]
        have hpx : 0 ≤ px := hq0 o.sym px hq
        have : 0 ≤ (o.qty : ℚ) * px := mul_nonneg (Nat.cast_nonneg _) hpx
        show -eps ≤ st.cash + (o.qty : ℚ) * px
        linarith

theorem tbFold_cash_lb (quotes : Ticker → Option ℚ)
    (hq0 : ∀ t px, quotes t = some px → 0 ≤ px) (os : List Order) :
    ∀ st : EngineSt, -eps ≤ st.cash →
      -eps ≤ (os.foldl (fun s o => (tbLoopStep quotes s o).1) st).cash := by
  induction os with
  | nil => exact fun st h => h
  | cons o os ih =>
    intro st h
    exact ih _ (tbLoopStep_cash_lb quotes hq0 st o h)

/-- C5 amended: given nonnegative quote prices, trader_poller's `do_order`
preserves cash nonnegativity per order; trade_bot's per-order step only
preserves the weaker bound cash ≥ -1e-9 (within the buy tolerance), and the
cash it persists at the end of a nonempty batch is nonnegative again after
rounding; and for orders with positive quantity neither engine ever leaves
a zero-quantity position entry. -/
theorem portfolio_invariants (allow : List Ticker) (quotes : Ticker → Option ℚ)
    (side : Side) (sym : Ticker) (qty : ℕ) (st : EngineSt)
    (hq0 : ∀ t px, quotes t = some px → 0 ≤ px) :
    (0 ≤ st.cash → 0 ≤ (do_order allow quotes side sym qty st).1.cash) ∧
    (-eps ≤ st.cash → -eps ≤ (tbProcessOrder allow quotes st ⟨side, sym, qty⟩).1.cash) ∧
    (∀ o os, -eps ≤ st.cash → 0 ≤ (tbFillBatch allow quotes (o :: os) st).cash) ∧
    (0 < qty → (∀ p ∈ st.positions, p.2 ≠ 0) →
      ∀ p ∈ (do_order allow quotes side sym qty st).1.positions, p.2 ≠ 0) ∧
    (0 < qty → (∀ p ∈ st.positions, p.2 ≠ 0) →
      ∀ p ∈ (tbProcessOrder allow quotes st ⟨side, sym, qty⟩).1.positions, p.2 ≠ 0) := by
  have heps : (0 : ℚ) < eps := by norm_num [eps]
  refine ⟨?_, ?_, ?_, ?_, ?_⟩
  · unfold do_order
    by_cases hA : sym ∈ allow
    · rw [if_pos hA]
      cases hq : quotes sym with
      | none => exact fun h => h
      | some px =>
        cases side with
        | buy =>
          by_cases hc : (qty : ℚ) * px > st.cash
          · simp only [hc, ite_true]
            exact fun h => h
          · simp only [hc, ite_false]
            intro _
            push_neg at hc
            exact round2_nonneg (by linarith)
        | sell =>
          by_cases hs : qty > posGet st.positions sym
          · simp only [hs, ite_true]
            exact fun h => h
          · simp only [hs, ite_false]
            intro h
            have hpx : 0 ≤ px := hq0 sym px hq
            have : 0 ≤ (qty : ℚ) * px := mul_nonneg (Nat.cast_nonneg _) hpx
            exact round2_nonneg (by linarith)
    · rw [if_neg hA]
      exact fun h => h
  · intro h
    unfold tbProcessOrder
    by_cases hA : sym ∈ allow
    · rw [if_pos hA]
      exact tbLoopStep_cash_lb quotes hq0 st _ h
    · rw [if_neg hA]
      exact h
  · intro o os h
    unfold tbFillBatch
    exact round2_nonneg (tbFold_cash_lb quotes hq0 _ st h)
  · unfold do_order
    by_cases hA : sym ∈ allow
    · rw [if_pos hA]
      cases hq : quotes sym with
      | none => exact fun _ hz => hz
      | some px =>
        cases side with
        | buy =>
          by_cases hc : (qty : ℚ) * px > st.cash
          · simp only [hc, ite_true]
            exact fun _ hz => hz
          · simp only [hc, ite_false]
            intro hqty hz p hp
            rcases mem_posSet hp with h' | h'
            · exact hz p h'
            · rw [h']
              omega
        | sell =>
          by_cases hs : qty > posGet st.positions sym
          · simp only [hs, ite_true]
            exact fun _ hz => hz
          · simp only [hs, ite_false]
            intro hqty hz p hp
            by_cases h0 : posGet st.positions sym - qty ≠ 0
            · rw [if_pos h0] at hp
              rcases mem_posSet hp with h' | h'
              · exact hz p h'
              · rw [h']
                exact h0
            · rw [if_neg h0] at hp
              exact hz p (mem_posPop hp)
    · rw [if_neg hA]
      exact fun _ hz => hz
  · unfold tbProcessOrder tbLoopStep
    by_cases hA : sym ∈ allow
    · rw [if_pos hA]
      cases hq : quotes sym with
      | none => exact fun _ hz => hz
      | some px =>
        cases side with
        | buy =>
          by_cases hc : (qty : ℚ) * px > st.cash + eps
          · simp only [hc, ite_true]
            exact fun _ hz => hz
          · simp only [hc, ite_false]
            intro hqty hz p hp
            rcases mem_posSet hp with h' | h'
            · exact hz p h'
            · rw [h']
              omega
        | sell =>
          by_cases hs : qty > posGet st.positions sym
          · simp only [hs, ite_true]
            exact fun _ hz => hz
          · simp only [hs, ite_false, posGet_posSet, posPop_posSet]
            intro hqty hz p hp
            by_cases h0 : posGet st.positions sym - qty = 0
            · rw [if_pos h0] at hp
              exact hz p (mem_posPop hp)
            · rw [if_neg h0] at hp
              rcases mem_posSet hp with h' | h'
              · exact hz p h'
              · rw [h']
                exact h0
    · rw [if_neg hA]
      exact fun _ hz => hz

/-- C5 witness: a sell of 1 of 2 held shares at price 5 from cash 100
keeps cash nonnegative and positions free of zero quantities. -/
theorem portfolio_invariants_witness :
    0 ≤ (do_order [['A']] (fun _ => some 5) Side.sell ['A'] 1
        ⟨100, [(['A'], 2)], []⟩).1.cash ∧
    (∀ p ∈ (do_order [['A']] (fun _ => some 5) Side.sell ['A'] 1
        ⟨100, [(['A'], 2)], []⟩).1.positions, p.2 ≠ 0) := by
  have h := portfolio_invariants [['A']] (fun _ => some 5) Side.sell ['A'] 1
    ⟨100, [(['A'], 2)], []⟩
    (by intro t px hp; injection hp with hp'; rw [← hp']; norm_num)
  exact ⟨h.1 (by norm_num), h.2.2.2.1 (by norm_num) (by decide)⟩

/-! ## Claim C7: when cash is rounded -/

/-- C7 counterexample: the claim says cash is rounded to two decimals after
each fill before the next order in the batch reads it.  In trade_bot the
in-batch cash after buying 1 share at price 1/8 from cash 10 is 79/8 =
9.875, which is not a two-decimal value; a second identical order in the
same batch reads that unrounded value, and the batch result 39/4 = 9.75
differs from the 9.76 that per-order rounding (as the claim describes)
would produce. -/
theorem unrounded_cash_counterexample :
    (tbLoopStep (fun _ => some (1/8)) ⟨10, [], []⟩ ⟨Side.buy, ['A'], 1⟩).1.cash = 79/8 ∧
    round2 (79/8) ≠ (79/8 : ℚ) ∧
    (tbFillBatch [['A']] (fun _ => some (1/8))
        [⟨Side.buy, ['A'], 1⟩, ⟨Side.buy, ['A'], 1⟩] ⟨10, [], []⟩).cash = 39/4 ∧
    round2 (round2 (10 - 1/8) - 1/8) = 244/25 ∧
    (39/4 : ℚ) ≠ 244/25 := by
  refine ⟨?_, ?_, ?_, ?_, by norm_num⟩
  · norm_num [tbLoopStep, eps]
  · norm_num [round2, round_eq, Int.floor_eq_iff]
  · norm_num [tbFillBatch, tbLoopStep, posGet, posSet, eps, round2, round_eq,
      Int.floor_eq_iff]
  · norm_num [round2, round_eq, Int.floor_eq_iff]

/-- C7 amended: trader_poller's `do_order` leaves cash a two-decimal value
(a fixed point of cent rounding) after every fill, so the next message in
its batch reads rounded cash; trade_bot rounds only once, at the final
save of a nonempty batch, whose persisted cash is a fixed point of cent
rounding — its in-batch intermediate cash is not rounded. -/
theorem cash_rounding_discipline (allow : List Ticker) (quotes : Ticker → Option ℚ)
    (side : Side) (sym : Ticker) (qty : ℕ) (st : EngineSt) (o : Order) (os : List Order) :
    ((do_order allow quotes side sym qty st).2 = Outcome.filled →
      round2 (do_order allow quotes side sym qty st).1.cash =
        (do_order allow quotes side sym qty st).1.cash) ∧
    round2 (tbFillBatch allow quotes (o :: os) st).cash =
      (tbFillBatch allow quotes (o :: os) st).cash := by
  constructor
  · unfold do_order
    by_cases hA : sym ∈ allow
    · rw [if_pos hA]
      cases hq : quotes sym with
      | none => intro h; exact absurd h (by simp)
      | some px =>
        cases side with
        | buy =>
          by_cases hc : (qty : ℚ) * px > st.cash
          · simp only [hc, ite_true]
            intro h
            exact absurd h (by simp)
          · simp only [hc, ite_false]
            intro _
            exact round2_round2 _
        | sell =>
          by_cases hs : qty > posGet st.positions sym
          · simp only [hs, ite_true]
            intro h
            exact absurd h (by simp)
          · simp only [hs, ite_false]
            intro _
            exact round2_round2 _
    · rw [if_neg hA]
      intro h
      exact absurd h (by simp)
  · unfold tbFillBatch
    exact round2_round2 _

/-- C7 witness: after a filled poller buy of 1 share at price 1/8 the
resulting cash is its own cent rounding. -/
theorem cash_rounding_discipline_witness :
    round2 (do_order [['A']] (fun _ => some (1/8)) Side.buy ['A'] 1
        ⟨10, [], []⟩).1.cash =
      (do_order [['A']] (fun _ => some (1/8)) Side.buy ['A'] 1 ⟨10, [], []⟩).1.cash :=
  (cash_rounding_discipline [['A']] (fun _ => some (1/8)) Side.buy ['A'] 1
      ⟨10, [], []⟩ ⟨Side.buy, ['A'], 1⟩ []).1
    (by norm_num [do_order])

/-! ## Claim C10: equivalence of the two fill engines -/

/-- C10 counterexample: the claim says the two per-order fill steps always
produce the same accept/reject outcome.  With cash 100 and price
100 + 1e-10 for one share, trade_bot fills the buy (epsilon tolerance)
while trader_poller rejects it for insufficient cash. -/
theorem engine_divergence_counterexample :
    (tbProcessOrder [['A']] (fun _ => some (100 + 1/10000000000)) ⟨100, [], []⟩
        ⟨Side.buy, ['A'], 1⟩).2 = Outcome.filled ∧
    (do_order [['A']] (fun _ => some (100 + 1/10000000000)) Side.buy ['A'] 1
        ⟨100, [], []⟩).2 = Outcome.insufficientCash := by
  constructor
  · norm_num [tbProcessOrder, tbLoopStep, eps]
  · norm_num [do_order]

/-- C10 amended: the two per-order steps agree except inside the buy
epsilon window: whenever the order is a sell, or a buy whose cost is either
at most cash or exceeds cash + 1e-9, the outcomes coincide, the resulting
positions and appended ledger records are identical, on a fill the poller's
cash is the cent rounding of trade_bot's unrounded cash, and on a rejection
both leave cash unchanged. -/
theorem engine_step_equivalence (allow : List Ticker) (quotes : Ticker → Option ℚ)
    (side : Side) (sym : Ticker) (qty : ℕ) (st : EngineSt)
    (hgate : side = Side.buy → ∀ px, quotes sym = some px →
      (qty : ℚ) * px ≤ st.cash ∨ st.cash + eps < (qty : ℚ) * px) :
    (tbProcessOrder allow quotes st ⟨side, sym, qty⟩).2 =
      (do_order allow quotes side sym qty st).2 ∧
    (tbProcessOrder allow quotes st ⟨side, sym, qty⟩).1.positions =
      (do_order allow quotes side sym qty st).1.positions ∧
    (tbProcessOrder allow quotes st ⟨side, sym, qty⟩).1.ledger =
      (do_order allow quotes side sym qty st).1.ledger ∧
    ((tbProcessOrder allow quotes st ⟨side, sym, qty⟩).2 = Outcome.filled →
      (do_order allow quotes side sym qty st).1.cash =
        round2 (tbProcessOrder allow quotes st ⟨side, sym, qty⟩).1.cash) ∧
    ((tbProcessOrder allow quotes st ⟨side, sym, qty⟩).2 ≠ Outcome.filled →
      (tbProcessOrder allow quotes st ⟨side, sym, qty⟩).1.cash = st.cash ∧
      (do_order allow quotes side sym qty st).1.cash = st.cash) := by
  have heps : (0 : ℚ) < eps := by norm_num [eps]
  by_cases hA : sym ∈ allow
  · cases hq : quotes sym with
    | none =>
      have ht1 : tbProcessOrder allow quotes st ⟨side, sym, qty⟩ = (st, Outcome.noPrice) := by
        unfold tbProcessOrder tbLoopStep
        rw [if_pos hA, hq]
      have hp1 : do_order allow quotes side sym qty st = (st, Outcome.noPrice) := by
        unfold do_order
        rw [if_pos hA, hq]
      rw [ht1, hp1]
      refine ⟨rfl, rfl, rfl, ?_, fun _ => ⟨rfl, rfl⟩⟩
      intro h
      simp at h
    | some px =>
      cases side with
      | buy =>
        rcases hgate rfl px hq with hle | hgt
        · have ht1 : tbProcessOrder allow quotes st ⟨Side.buy, sym, qty⟩ =
              ({ cash := st.cash - qty * px,
                 positions := posSet st.positions sym (posGet st.positions sym + qty),
                 ledger := st.ledger ++ [⟨Side.buy, sym, qty, px, (qty : ℚ) * px⟩] },
               Outcome.filled) := by
            unfold tbProcessOrder tbLoopStep
            rw [if_pos hA, hq]
            simp only [gt_iff_lt, not_lt.mpr (show (qty : ℚ) * px ≤ st.cash + eps by linarith),
              ite_false]
          have hp1 : do_order allow quotes Side.buy sym qty st =
              ({ cash := round2 (st.cash - qty * px),
                 positions := posSet st.positions sym (posGet st.positions sym + qty),
                 ledger := st.ledger ++ [⟨Side.buy, sym, qty, px, (qty : ℚ) * px⟩] },
               Outcome.filled) := by
            unfold do_order
            rw [if_pos hA, hq]
            simp only [gt_iff_lt, not_lt.mpr hle, ite_false]
          rw [ht1, hp1]
          exact ⟨rfl, rfl, rfl, fun _ => rfl, fun h => absurd rfl h⟩
        · have ht1 : tbProcessOrder allow quotes st ⟨Side.buy, sym, qty⟩ =
              (st, Outcome.insufficientCash) := by
            unfold tbProcessOrder tbLoopStep
            rw [if_pos hA, hq]
            simp only [gt_iff_lt, hgt, ite_true]
          have hp1 : do_order allow quotes Side.buy sym qty st =
              (st, Outcome.insufficientCash) := by
            unfold do_order
            rw [if_pos hA, hq]
            simp only [gt_iff_lt, show st.cash < (qty : ℚ) * px by linarith, ite_true]
          rw [ht1, hp1]
          refine ⟨rfl, rfl, rfl, ?_, fun _ => ⟨rfl, rfl⟩⟩
          intro h
          simp at h
      | sell =>
        by_cases hs : qty > posGet st.positions sym
        · have ht1 : tbProcessOrder allow quotes st ⟨Side.sell, sym, qty⟩ =
              (st, Outcome.insufficientShares) := by
            unfold tbProcessOrder tbLoopStep
            rw [if_pos hA, hq]
            simp only [gt_iff_lt, hs, ite_true]
          have hp1 : do_order allow quotes Side.sell sym qty st =
              (st, Outcome.insufficientShares) := by
            unfold do_order
            rw [if_pos hA, hq]
            simp only [gt_iff_lt, hs, ite_true]
          rw [ht1, hp1]
          refine ⟨rfl, rfl, rfl, ?_, fun _ => ⟨rfl, rfl⟩⟩
          intro h
          simp at h
        · have hqty : qty ≤ posGet st.positions sym := not_lt.mp hs
          have ht1 : tbProcessOrder allow quotes st ⟨Side.sell, sym, qty⟩ =
              ({ cash := st.cash + qty * px,
                 positions :=
                   if posGet st.positions sym - qty = 0
                   then posPop st.positions sym
                   else posSet st.positions sym (posGet st.positions sym - qty),
                 ledger := st.ledger ++ [⟨Side.sell, sym, qty, px, (qty : ℚ) * px⟩] },
               Outcome.filled) := by
            unfold tbProcessOrder tbLoopStep
            rw [if_pos hA, hq]
            simp only [gt_iff_lt, not_lt.mpr hqty, ite_false, posGet_posSet, posPop_posSet]
          have hp1 : do_order allow quotes Side.sell sym qty st =
              ({ cash := round2 (st.cash + qty * px),
                 positions :=
                   if posGet st.positions sym - qty ≠ 0
                   then posSet st.positions sym (posGet st.positions sym - qty)
                   else posPop st.positions sym,
                 ledger := st.ledger ++ [⟨Side.sell, sym, qty, px, (qty : ℚ) * px⟩] },
               Outcome.filled) := by
            unfold do_order
            rw [if_pos hA, hq]
            simp only [gt_iff_lt, not_lt.mpr hqty, ite_false]
          rw [ht1, hp1]
          refine ⟨rfl, ?_, rfl, fun _ => rfl, fun h => absurd rfl h⟩
          by_cases h0 : posGet st.positions sym - qty = 0
          · simp [h0]
          · simp [h0]
  · have ht1 : tbProcessOrder allow quotes st ⟨side, sym, qty⟩ = (st, Outcome.notAllowed) := by
      unfold tbProcessOrder
      rw [if_neg hA]
    have hp1 : do_order allow quotes side sym qty st = (st, Outcome.notAllowed) := by
      unfold do_order
      rw [if_neg hA]
    rw [ht1, hp1]
    refine ⟨rfl, rfl, rfl, ?_, fun _ => ⟨rfl, rfl⟩⟩
    intro h
    simp at h

/-- C10 witness: a full sell of 2 shares at price 5 is handled identically
by the two engines. -/
theorem engine_step_equivalence_witness :
    (tbProcessOrder [['A']] (fun _ => some 5) ⟨100, [(['A'], 2)], []⟩
        ⟨Side.sell, ['A'], 2⟩).1.positions =
      (do_order [['A']] (fun _ => some 5) Side.sell ['A'] 2
        ⟨100, [(['A'], 2)], []⟩).1.positions ∧
    (tbProcessOrder [['A']] (fun _ => some 5) ⟨100, [(['A'], 2)], []⟩
        ⟨Side.sell, ['A'], 2⟩).2 =
      (do_order [['A']] (fun _ => some 5) Side.sell ['A'] 2
        ⟨100, [(['A'], 2)], []⟩).2 := by
  have h := engine_step_equivalence [['A']] (fun _ => some 5) Side.sell ['A'] 2
    ⟨100, [(['A'], 2)], []⟩ (fun hh => nomatch hh)
  exact ⟨h.2.1, h.1⟩

/-! ## Claim C8: the NAV identity -/

theorem navFold (val : ℕ → ℚ → ℚ) (quotes : Ticker → Option ℚ) (ps : List (Ticker × ℕ)) :
    ∀ (a : ℚ) (rs : List Row),
      ps.foldl (navStep val quotes) (a, rs) =
        (a + (ps.filterMap (fun p => (quotes p.1).map (fun px => val p.2 px))).sum,
         rs ++ ps.filterMap (fun p => (quotes p.1).map
           (fun px => Row.mk p.1 p.2 px (val p.2 px)))) := by
  induction ps with
  | nil => intro a rs; simp
  | cons p ps ih =>
    intro a rs
    cases hq : quotes p.1 with
    | none => simp [List.foldl_cons, navStep, hq, ih]
    | some px => simp [List.foldl_cons, navStep, hq, ih, add_assoc]

/-- C8: for every portfolio and quote mapping, the reported NAV equals cash
plus the sum of quantity times price over exactly the quoted positions, and
the per-position rows are exactly the quoted positions in order — in
trade_bot's `mark_to_market` and in trader_poller's `do_portfolio` (which
posts no NAV when there are no positions). -/
theorem nav_identity (cash : ℚ) (ps : List (Ticker × ℕ)) (quotes : Ticker → Option ℚ) :
    mark_to_market cash ps quotes =
      (cash + (ps.filterMap (fun p => (quotes p.1).map (fun px => px * (p.2 : ℚ)))).sum,
       ps.filterMap (fun p => (quotes p.1).map
         (fun px => Row.mk p.1 p.2 px (px * (p.2 : ℚ))))) ∧
    do_portfolio cash ps quotes =
      (if ps = [] then none else some
        (cash + (ps.filterMap (fun p => (quotes p.1).map (fun px => (p.2 : ℚ) * px))).sum,
         ps.filterMap (fun p => (quotes p.1).map
           (fun px => Row.mk p.1 p.2 px ((p.2 : ℚ) * px))))) := by
  constructor
  · unfold mark_to_market
    rw [navFold]
    simp
  · unfold do_portfolio
    by_cases h : ps = []
    · rw [if_pos h, if_pos h]
    · rw [if_neg h, if_neg h, navFold]
      simp

/-! ## Claim C9: cursor discipline of the polling loop -/

/-- C9: after one run of trader_poller's `main` over a nonempty fetched
batch (newest first), the persisted cursor equals the identifier of the
newest message, whether or not any message was actionable; over an empty
batch the cursor is unchanged. -/
theorem cursor_advance (lastId : Option ℕ) (m : Msg) (rest : List Msg) :
    finalCursor lastId (m :: rest) = some m.id ∧ finalCursor lastId [] = lastId := by
  constructor
  · have hfold : ((m :: rest).reverse.foldl pollStep (lastId, false)).1 = some m.id := by
      rw [List.reverse_cons, List.foldl_append]
      rfl
    unfold finalCursor
    by_cases hpa : ((m :: rest).reverse.foldl pollStep (lastId, false)).2 = true
    · rw [if_pos hpa]
      exact hfold
    · rw [if_neg hpa]
      by_cases hc : lastId ≠ ((m :: rest).reverse.foldl pollStep (lastId, false)).1 ∧
          ((m :: rest).reverse.foldl pollStep (lastId, false)).1 ≠ none
      · rw [if_pos hc]
        exact hfold
      · rw [if_neg hc]
        push_neg at hc
        by_cases hl : lastId = ((m :: rest).reverse.foldl pollStep (lastId, false)).1
        · rw [hl]
          exact hfold
        · have := hc hl
          rw [hfold] at this
          exact absurd this (by simp)
  · simp [finalCursor]

/-! ## Claim C6: list and character-class helper lemmas -/

theorem all_takeWhile (p : Char → Bool) (l : List Char) :
    ∀ c ∈ l.takeWhile p, p c = true := by
  induction l with
  | nil => simp
  | cons x xs ih =>
    by_cases hx : p x = true
    · simp only [List.takeWhile_cons, hx, ite_true, List.mem_cons]
      rintro c (rfl | hc)
      · exact hx
      · exact ih c hc
    · simp only [List.takeWhile_cons, hx]
      simp [Bool.not_eq_true] at hx
      simp [hx]

theorem dropWhile_nil_of_all {p : Char → Bool} {l : List Char}
    (h : ∀ c ∈ l, p c = true) : l.dropWhile p = [] := by
  induction l with
  | nil => rfl
  | cons x xs ih =>
    have hx := h x (List.mem_cons_self _ _)
    simp only [List.dropWhile_cons, hx, ite_true]
    exact ih fun c hc => h c (List.mem_cons_of_mem _ hc)

theorem all_of_dropWhile_nil {p : Char → Bool} {l : List Char}
    (h : l.dropWhile p = []) : ∀ c ∈ l, p c = true := by
  induction l with
  | nil => simp
  | cons x xs ih =>
    by_cases hx : p x = true
    · simp only [List.dropWhile_cons, hx, ite_true] at h
      intro c hc
      rcases List.mem_cons.mp hc with rfl | hc'
      · exact hx
      · exact ih h c hc'
    · simp [Bool.not_eq_true] at hx
      simp [hx] at h

theorem span_append (p : Char → Bool) (w r : List Char)
    (hr : ∀ c, r.head? = some c → p c = false) :
    (∀ c ∈ w, p c = true) → ((w ++ r).takeWhile p = w ∧ (w ++ r).dropWhile p = r) := by
  induction w with
  | nil =>
    intro _
    constructor
    · cases r with
      | nil => rfl
      | cons x xs => simp [List.takeWhile_cons, hr x rfl]
    · cases r with
      | nil => rfl
      | cons x xs => simp [List.dropWhile_cons, hr x rfl]
  | cons c cs ih =>
    intro hw
    have hc := hw c (List.mem_cons_self _ _)
    have ih' := ih fun d hd => hw d (List.mem_cons_of_mem _ hd)
    constructor
    · simp [List.takeWhile_cons, hc, ih'.1]
    · simp [List.dropWhile_cons, hc, ih'.2]

theorem tickP_not_ws {c : Char} (h : isTickP c = true) : isWS c = false := by
  simp only [isTickP, isAlphaC, isDigitC, Bool.or_eq_true, Bool.and_eq_true,
    decide_eq_true_eq] at h
  simp only [isWS, Bool.or_eq_false_iff, decide_eq_false_iff_not]
  omega

theorem tickB_not_ws {c : Char} (h : isTickB c = true) : isWS c = false := by
  rcases (by simpa [isTickB] using h : isTickP c = true ∨ c.toNat = 95) with h' | h'
  · exact tickP_not_ws h'
  · simp only [isWS, Bool.or_eq_false_iff, decide_eq_false_iff_not]
    omega

theorem digit_not_ws {c : Char} (h : isDigitC c = true) : isWS c = false := by
  simp only [isDigitC, Bool.and_eq_true, decide_eq_true_eq] at h
  simp only [isWS, Bool.or_eq_false_iff, decide_eq_false_iff_not]
  omega

theorem ws_not_digit {c : Char} (h : isWS c = true) : isDigitC c = false := by
  simp only [isWS, Bool.or_eq_true, decide_eq_true_eq] at h
  simp only [isDigitC, Bool.and_eq_false_iff, decide_eq_false_iff_not]
  omega

theorem lowerC_of_digit {c : Char} (h : isDigitC c = true) : lowerC c = c := by
  simp only [isDigitC, Bool.and_eq_true, decide_eq_true_eq] at h
  unfold lowerC
  rw [if_neg]
  omega

theorem lowerC_of_ws {c : Char} (h : isWS c = true) : lowerC c = c := by
  simp only [isWS, Bool.or_eq_true, decide_eq_true_eq] at h
  unfold lowerC
  rw [if_neg]
  omega

theorem at_head_not_digit {c : Char} (h : lowerC c = '@') : isDigitC c = false := by
  cases hd : isDigitC c with
  | false => rfl
  | true =>
    rw [lowerC_of_digit hd] at h
    rw [h] at hd
    exact absurd hd (by decide)

theorem at_head_not_ws {c : Char} (h : lowerC c = '@') : isWS c = false := by
  cases hd : isWS c with
  | false => rfl
  | true =>
    rw [lowerC_of_ws hd] at h
    rw [h] at hd
    exact absurd hd (by decide)

theorem matchSide_eq_some {s : List Char} {sd : Side} {r : List Char}
    (h : matchSide s = some (sd, r)) : ∃ sw, s = sw ++ r ∧ SideWordOK sd sw := by
  unfold matchSide at h
  by_cases h3 : (s.take 3).map lowerC = ['b', 'u', 'y']
  · rw [if_pos h3] at h
    injection h with h'
    have h1 : Side.buy = sd := congrArg Prod.fst h'
    have h2 : s.drop 3 = r := congrArg Prod.snd h'
    exact ⟨s.take 3, by rw [← h2]; exact (List.take_append_drop 3 s).symm,
      Or.inl ⟨h1.symm, h3⟩⟩
  · rw [if_neg h3] at h
    by_cases h4 : (s.take 4).map lowerC = ['s', 'e', 'l', 'l']
    · rw [if_pos h4] at h
      injection h with h'
      have h1 : Side.sell = sd := congrArg Prod.fst h'
      have h2 : s.drop 4 = r := congrArg Prod.snd h'
      exact ⟨s.take 4, by rw [← h2]; exact (List.take_append_drop 4 s).symm,
        Or.inr ⟨h1.symm, h4⟩⟩
    · rw [if_neg h4] at h
      exact absurd h (by simp)

theorem matchSide_append_buy {sw : List Char} (r : List Char)
    (h : sw.map lowerC = ['b', 'u', 'y']) : matchSide (sw ++ r) = some (Side.buy, r) := by
  have hl : sw.length = 3 := by
    have := congrArg List.length h
    simpa using this
  have ht : ((sw ++ r).take 3).map lowerC = ['b', 'u', 'y'] := by
    rw [← hl, List.take_left]
    exact h
  have hd : (sw ++ r).drop 3 = r := by
    rw [← hl, List.drop_left]
  unfold matchSide
  rw [if_pos ht, hd]

theorem matchSide_append_sell {sw : List Char} (r : List Char)
    (h : sw.map lowerC = ['s', 'e', 'l', 'l']) : matchSide (sw ++ r) = some (Side.sell, r) := by
  have hl : sw.length = 4 := by
    have := congrArg List.length h
    simpa using this
  have hne : ((sw ++ r).take 3).map lowerC ≠ ['b', 'u', 'y'] := by
    rw [List.map_take, List.map_append, h]
    simp
  have ht : ((sw ++ r).take 4).map lowerC = ['s', 'e', 'l', 'l'] := by
    rw [← hl, List.take_left]
    exact h
  have hd : (sw ++ r).drop 4 = r := by
    rw [← hl, List.drop_left]
  unfold matchSide
  rw [if_neg hne, if_pos ht, hd]

theorem tailAccept_iff_TailOK (allowMkt : Bool) (tl : List Char) :
    tailAccept allowMkt tl ↔ TailOK allowMkt tl := by
  cases allowMkt with
  | false => simp [tailAccept, TailOK]
  | true =>
    simp only [tailAccept, TailOK, ite_true]
    constructor
    · rintro (h | h)
      · exact Or.inl (all_of_dropWhile_nil h)
      · refine Or.inr ⟨tl.takeWhile isWS, tl.dropWhile isWS,
          (List.takeWhile_append_dropWhile isWS tl).symm, ?_, h⟩
        exact all_takeWhile _ _
    · rintro (h | ⟨w3, mk, rfl, hw3, hmk⟩)
      · exact Or.inl (dropWhile_nil_of_all h)
      · right
        cases mk with
        | nil => exact absurd hmk (by simp)
        | cons c0 mk' =>
          have hc0 : lowerC c0 = '@' := by
            injection hmk
          have hdrop : (w3 ++ c0 :: mk').dropWhile isWS = c0 :: mk' := by
            refine (span_append isWS w3 (c0 :: mk') ?_ hw3).2
            intro c hc
            injection hc with hc
            rw [← hc]
            exact at_head_not_ws hc0
          rw [hdrop]
          exact hmk

theorem TailOK_head_not_digit {allowMkt : Bool} {tl : List Char} (htl : TailOK allowMkt tl) :
    ∀ c, tl.head? = some c → isDigitC c = false := by
  cases allowMkt with
  | false =>
    rw [show TailOK false tl = (tl = []) from rfl] at htl
    subst htl
    intro c hc
    exact absurd hc (by simp)
  | true =>
    rw [show TailOK true tl =
      (AllWS tl ∨ ∃ w3 mk, tl = w3 ++ mk ∧ AllWS w3 ∧
        mk.map lowerC = ['@', 'm', 'k', 't']) from rfl] at htl
    rcases htl with h | ⟨w3, mk, rfl, hw3, hmk⟩
    · intro c hc
      cases tl with
      | nil => exact absurd hc (by simp)
      | cons x xs =>
        injection hc with hc
        rw [← hc]
        exact ws_not_digit (h x (List.mem_cons_self _ _))
    · intro c hc
      cases w3 with
      | nil =>
        cases mk with
        | nil => exact absurd hmk (by simp)
        | cons c0 mk' =>
          simp only [List.nil_append, List.head?_cons] at hc
          injection hc with hc
          rw [← hc]
          have hc0 : lowerC c0 = '@' := by
            injection hmk
          exact at_head_not_digit hc0
      | cons a w3' =>
        simp only [List.cons_append, List.head?_cons] at hc
        injection hc with hc
        rw [← hc]
        exact ws_not_digit (hw3 a (List.mem_cons_self _ _))

theorem matchOrderCore_iff (tick : Char → Bool) (allowMkt : Bool)
    (hdisj : ∀ c, tick c = true → isWS c = false) (s : List Char) (sd : Side)
    (tk : List Char) (q : ℕ) :
    matchOrderCore tick allowMkt s = some (sd, tk, q) ↔ CoreShape tick allowMkt s sd tk q := by
  constructor
  · intro h
    unfold matchOrderCore at h
    cases hms : matchSide s with
    | none =>
      rw [hms] at h
      exact absurd h (by simp)
    | some pr =>
      obtain ⟨sd', r1⟩ := pr
      rw [hms] at h
      dsimp only at h
      by_cases h1 : r1.takeWhile isWS = []
      · rw [if_pos h1] at h
        exact absurd h (by simp)
      rw [if_neg h1] at h
      by_cases h2 : (r1.dropWhile isWS).takeWhile tick = []
      · rw [if_pos h2] at h
        exact absurd h (by simp)
      rw [if_neg h2] at h
      by_cases h3 : 10 < ((r1.dropWhile isWS).takeWhile tick).length
      · rw [if_pos h3] at h
        exact absurd h (by simp)
      rw [if_neg h3] at h
      by_cases h4 : ((r1.dropWhile isWS).dropWhile tick).takeWhile isWS = []
      · rw [if_pos h4] at h
        exact absurd h (by simp)
      rw [if_neg h4] at h
      by_cases h5 : ((((r1.dropWhile isWS).dropWhile tick).dropWhile isWS).takeWhile isDigitC) = []
      · rw [if_pos h5] at h
        exact absurd h (by simp)
      rw [if_neg h5] at h
      by_cases h6 : tailAccept allowMkt
          ((((r1.dropWhile isWS).dropWhile tick).dropWhile isWS).dropWhile isDigitC)
      · rw [if_pos h6] at h
        injection h with h'
        have e1 : sd' = sd := congrArg Prod.fst h'
        have e2 : (r1.dropWhile isWS).takeWhile tick = tk := congrArg (fun t => t.2.1) h'
        have e3 : digitsVal ((((r1.dropWhile isWS).dropWhile tick).dropWhile isWS).takeWhile
            isDigitC) = q := congrArg (fun t => t.2.2) h'
        obtain ⟨sw, hs_eq, hsw⟩ := matchSide_eq_some hms
        refine ⟨sw, r1.takeWhile isWS,
          ((r1.dropWhile isWS).dropWhile tick).takeWhile isWS,
          (((r1.dropWhile isWS).dropWhile tick).dropWhile isWS).takeWhile isDigitC,
          (((r1.dropWhile isWS).dropWhile tick).dropWhile isWS).dropWhile isDigitC,
          ?_, e1 ▸ hsw, h1, all_takeWhile _ _, e2 ▸ h2, ?_, ?_, h4, all_takeWhile _ _,
          h5, all_takeWhile _ _, (tailAccept_iff_TailOK _ _).1 h6, e3.symm⟩
        · rw [hs_eq, ← e2]
          simp only [List.append_assoc]
          congr 1
          conv_lhs => rw [← List.takeWhile_append_dropWhile isWS r1]
          congr 1
          conv_lhs => rw [← List.takeWhile_append_dropWhile tick (r1.dropWhile isWS)]
          congr 1
          conv_lhs =>
            rw [← List.takeWhile_append_dropWhile isWS ((r1.dropWhile isWS).dropWhile tick)]
          congr 1
          exact (List.takeWhile_append_dropWhile isDigitC _).symm
        · rw [← e2]
          exact le_of_not_lt h3
        · rw [← e2]
          exact all_takeWhile _ _
      · rw [if_neg h6] at h
        exact absurd h (by simp)
  · rintro ⟨sw, w1, w2, ds, tl, rfl, hsw, hw1ne, hw1, htkne, htklen, htk, hw2ne, hw2,
      hdsne, hds, htl, rfl⟩
    have hheadtk : ∀ c, (tk ++ (w2 ++ (ds ++ tl))).head? = some c → isWS c = false := by
      cases tk with
      | nil => exact absurd rfl htkne
      | cons t0 ts =>
        intro c hc
        rw [List.cons_append, List.head?_cons] at hc
        injection hc with hc
        rw [← hc]
        exact hdisj t0 (htk t0 (List.mem_cons_self _ _))
    have hheadw2 : ∀ c, (w2 ++ (ds ++ tl)).head? = some c → tick c = false := by
      cases w2 with
      | nil => exact absurd rfl hw2ne
      | cons a w2' =>
        intro c hc
        rw [List.cons_append, List.head?_cons] at hc
        injection hc with hc
        rw [← hc]
        have haws := hw2 a (List.mem_cons_self _ _)
        cases htt : tick a with
        | false => rfl
        | true =>
          rw [hdisj a htt] at haws
          exact Bool.noConfusion haws
    have hheadds : ∀ c, (ds ++ tl).head? = some c → isWS c = false := by
      cases ds with
      | nil => exact absurd rfl hdsne
      | cons d0 ds' =>
        intro c hc
        rw [List.cons_append, List.head?_cons] at hc
        injection hc with hc
        rw [← hc]
        exact digit_not_ws (hds d0 (List.mem_cons_self _ _))
    have s1 := span_append isWS w1 (tk ++ (w2 ++ (ds ++ tl))) hheadtk hw1
    have s2 := span_append tick tk (w2 ++ (ds ++ tl)) hheadw2 htk
    have s3 := span_append isWS w2 (ds ++ tl) hheadds hw2
    have s4 := span_append isDigitC ds tl (TailOK_head_not_digit htl) hds
    have hms : matchSide (sw ++ (w1 ++ (tk ++ (w2 ++ (ds ++ tl))))) =
        some (sd, w1 ++ (tk ++ (w2 ++ (ds ++ tl)))) := by
      rcases hsw with ⟨rfl, hbuy⟩ | ⟨rfl, hsell⟩
      · exact matchSide_append_buy _ hbuy
      · exact matchSide_append_sell _ hsell
    unfold matchOrderCore
    simp only [List.append_assoc, hms]
    rw [s1.1, s1.2, s2.1, s2.2, s3.1, s3.2, s4.1, s4.2]
    rw [if_neg hw1ne, if_neg htkne, if_neg (not_lt.mpr htklen), if_neg hw2ne,
      if_neg hdsne, if_pos ((tailAccept_iff_TailOK allowMkt tl).2 htl)]

theorem matchOrderFull_iff (sigil : Char) (tick : Char → Bool) (allowMkt : Bool)
    (hdisj : ∀ c, tick c = true → isWS c = false) (s : List Char) (sd : Side)
    (tk : List Char) (q : ℕ) :
    matchOrderFull sigil tick allowMkt s = some (sd, tk, q) ↔
      ∃ r, s = sigil :: r ∧ CoreShape tick allowMkt r sd tk q := by
  cases s with
  | nil => simp [matchOrderFull]
  | cons c r =>
    unfold matchOrderFull
    dsimp only
    by_cases hc : c = sigil
    · subst hc
      rw [if_pos rfl, matchOrderCore_iff tick allowMkt hdisj]
      constructor
      · intro h
        exact ⟨r, rfl, h⟩
      · rintro ⟨r', hr', h⟩
        injection hr' with _ h2
        rw [h2]
        exact h
    · rw [if_neg hc]
      constructor
      · intro h
        exact absurd h (by simp)
      · rintro ⟨r', hr', h⟩
        injection hr' with h1 _
        exact absurd h1 hc

theorem parse_command_order_iff (s : List Char) (sd : Side) (tk : List Char) (q : ℕ) :
    parse_command s = some (Cmd.order sd tk q) ↔
      ∃ raw, tk = raw.map upperC ∧ PollerOrderText s sd raw q := by
  unfold parse_command PollerOrderText
  cases hm : matchOrderFull '!' isTickP false (strip s) with
  | some pr =>
    obtain ⟨sd', tk', q'⟩ := pr
    dsimp only
    constructor
    · intro h
      injection h with h'
      injection h' with h1 h2 h3
      exact ⟨tk', h2.symm, (matchOrderFull_iff '!' isTickP false (fun c => tickP_not_ws)
        (strip s) sd' tk' q').1 hm |>.imp fun r hr => h1 ▸ h3 ▸ hr⟩
    · rintro ⟨raw, htk, hshape⟩
      have hm2 : matchOrderFull '!' isTickP false (strip s) = some (sd, raw, q) :=
        (matchOrderFull_iff '!' isTickP false (fun c => tickP_not_ws) (strip s) sd raw q).2
          hshape
      rw [hm] at hm2
      injection hm2 with hm2
      have e1 : sd' = sd := congrArg Prod.fst hm2
      have e2 : tk' = raw := congrArg (fun t => t.2.1) hm2
      have e3 : q' = q := congrArg (fun t => t.2.2) hm2
      rw [e1, e2, e3, htk]
  | none =>
    dsimp only
    constructor
    · intro h
      cases hp : matchPriceCmd (strip s) with
      | some tk' =>
        rw [hp] at h
        dsimp only at h
        injection h with h'
        exact Cmd.noConfusion h'
      | none =>
        rw [hp] at h
        dsimp only at h
        by_cases hpf : ((strip s).map lowerC).take 10 =
            ['!', 'p', 'o', 'r', 't', 'f', 'o', 'l', 'i', 'o']
        · rw [if_pos hpf] at h
          injection h with h'
          exact Cmd.noConfusion h'
        · rw [if_neg hpf] at h
          exact Option.noConfusion h
    · rintro ⟨raw, htk, hshape⟩
      have hm2 : matchOrderFull '!' isTickP false (strip s) = some (sd, raw, q) :=
        (matchOrderFull_iff '!' isTickP false (fun c => tickP_not_ws) (strip s) sd raw q).2
          hshape
      rw [hm] at hm2
      exact Option.noConfusion hm2

theorem parse_order_order_iff (s : List Char) (sd : Side) (tk : List Char) (q : ℕ) :
    parse_order s = some (sd, tk, q) ↔
      ∃ raw, tk = raw.map upperC ∧ TBOrderText s sd raw q := by
  unfold parse_order TBOrderText
  cases hm : matchOrderFull '/' isTickB true (strip s) with
  | some pr =>
    obtain ⟨sd', tk', q'⟩ := pr
    dsimp only [Option.map]
    constructor
    · intro h
      injection h with h'
      have h1 : sd' = sd := congrArg Prod.fst h'
      have h2 : tk'.map upperC = tk := congrArg (fun t => t.2.1) h'
      have h3 : q' = q := congrArg (fun t => t.2.2) h'
      exact ⟨tk', h2.symm, (matchOrderFull_iff '/' isTickB true (fun c => tickB_not_ws)
        (strip s) sd' tk' q').1 hm |>.imp fun r hr => h1 ▸ h3 ▸ hr⟩
    · rintro ⟨raw, htk, hshape⟩
      have hm2 : matchOrderFull '/' isTickB true (strip s) = some (sd, raw, q) :=
        (matchOrderFull_iff '/' isTickB true (fun c => tickB_not_ws) (strip s) sd raw q).2
          hshape
      rw [hm] at hm2
      injection hm2 with hm2
      have e1 : sd' = sd := congrArg Prod.fst hm2
      have e2 : tk' = raw := congrArg (fun t => t.2.1) hm2
      have e3 : q' = q := congrArg (fun t => t.2.2) hm2
      rw [e1, e2, e3, htk]
  | none =>
    dsimp only [Option.map]
    constructor
    · intro h
      exact Option.noConfusion h
    · rintro ⟨raw, htk, hshape⟩
      have hm2 : matchOrderFull '/' isTickB true (strip s) = some (sd, raw, q) :=
        (matchOrderFull_iff '/' isTickB true (fun c => tickB_not_ws) (strip s) sd raw q).2
          hshape
      rw [hm] at hm2
      exact Option.noConfusion hm2

/-- C6 counterexample: the claim says the quantity must be a positive
integer and that a quantity of zero yields `Unrecognized`.  The regexes'
`\d+` group matches the digit string `0`, so `!buy AAPL 0` parses to an
order with quantity 0 instead of being rejected. -/
theorem parse_qty_zero_counterexample :
    parse_command ("!buy AAPL 0".toList) =
      some (Cmd.order Side.buy ['A', 'A', 'P', 'L'] 0) := by
  decide

/-- C6 amended: each parser produces an order exactly when the stripped
text is its sigil, a case-insensitive `buy`/`sell`, whitespace, a raw
ticker of 1–10 characters over letters, digits, `.`, `-` (trade_bot's
`[\w.-]` class additionally admits `_`), whitespace, and a quantity that is
any nonempty string of decimal digits — zero included; trade_bot further
admits an optional trailing case-insensitive `@mkt`.  The reported ticker
is the raw ticker upper-cased and the quantity is the digit string's
value. -/
theorem parse_order_grammar (s : List Char) (sd : Side) (tk : List Char) (q : ℕ) :
    (parse_command s = some (Cmd.order sd tk q) ↔
      ∃ raw, tk = raw.map upperC ∧ PollerOrderText s sd raw q) ∧
    (parse_order s = some (sd, tk, q) ↔
      ∃ raw, tk = raw.map upperC ∧ TBOrderText s sd raw q) :=
  ⟨parse_command_order_iff s sd tk q, parse_order_order_iff s sd tk q⟩

end PaperTrader
